import Mathlib

/-!
Verification of the core of `lc_mod_updater` (`src/updater.py`): the
breadth-first dependency resolver `collect_mod_data`, the archive layout
installer `extract_mod`, and the orchestration order of `__main`.

The Python code is shallowly embedded:
* a scraped mod page (`get_mod_listing`'s parsing of the HTML) is an opaque
  function `page : String → PageData`; `get_mod_listing` itself is modelled
  faithfully: it builds a `ModListing` whose `url` field is the queried url
  and whose other fields come from the page;
* Python `set`s are modelled as duplicate-free `List String` values
  (`List.dedup`, filters); iteration order inside one frontier is a fixed
  list order, standing for CPython's unspecified set order;
* the `while True` loop of `collect_mod_data` is given explicit fuel and
  returns `none` when the fuel runs out, `some` when the loop breaks;
* the file system is a `Tree`: an association list from paths (segment
  lists) to file contents, where `writeFile` overwrites any file at the
  same path; `zipfile.extract` of an entry is a `writeFile`;
* `pathlib.Path(...).parts` is `pathParts` (splitting on `/`), and
  `str.lower()` is `lowerStr` (ASCII lowering, which is what the folder
  names involved use);
* `shutil.copytree(pack, root, dirs_exist_ok=True)` followed by
  `shutil.rmtree(pack)` in `extract_mod` is `bepinexMerge`: copy every file
  under the pack directory to the corresponding path under the root
  (overwriting), then delete everything still under the pack directory.
-/

namespace Updater

/-! ## Data model (mirrors `ModListing` of `src/updater.py`) -/

/-- The fields that `get_mod_listing` scrapes from a mod's page: everything
of a `ModListing` except the `url`, which is the url that was queried.
`last_updated` is an abstract day number standing for `datetime.date`. -/
structure PageData where
  name : String
  last_updated : Nat
  version : String
  download : String
  dependencies : List String
deriving DecidableEq, Repr

/-- `ModListing` of `src/updater.py`: data about a mod. -/
structure ModListing where
  name : String
  url : String
  last_updated : Nat
  version : String
  download : String
  dependencies : List String
deriving DecidableEq, Repr

/-- `get_mod_listing` of `src/updater.py`, with the HTML scraping abstracted
as `page`: the returned listing's `url` field is the queried `url`, and the
remaining fields are taken from the page. -/
def get_mod_listing (page : String → PageData) (url : String) : ModListing :=
  { name := (page url).name
    url := url
    last_updated := (page url).last_updated
    version := (page url).version
    download := (page url).download
    dependencies := (page url).dependencies }

/-! ## Dependency resolver (`collect_mod_data` of `src/updater.py`) -/

/-- The `while True` loop of `collect_mod_data`, with explicit fuel.
State at entry of an iteration: `listings` is the accumulated listing list,
`urls` is the Python `urls` set (all references seen so far), `newUrls` is
the Python `new_urls` set (the frontier about to be queried).  One
iteration queries the frontier, appends the results, computes the set of
newly discovered dependency references, and either breaks (returning the
accumulated listings together with the final `urls` set) or recurs. -/
def collectLoop (page : String → PageData) :
    Nat → List ModListing → List String → List String →
    Option (List ModListing × List String)
  | 0, _, _, _ => none
  | fuel + 1, listings, urls, newUrls =>
    let newListings := newUrls.map (get_mod_listing page)
    let listings2 := listings ++ newListings
    let newUrls2 :=
      ((newListings.map ModListing.dependencies).flatten.dedup).filter
        (fun d => !(urls.contains d))
    if newUrls2.isEmpty then some (listings2, urls)
    else collectLoop page fuel listings2 (urls ++ newUrls2) newUrls2

/-- `collect_mod_data` of `src/updater.py`: dedup the seed url list, run the
closure loop, then split the accumulated listings at index
`len(urls) - 1` (the length of the final seen set, minus one) into
`original_mods` and `dependencies`. -/
def collect_mod_data (page : String → PageData) (fuel : Nat)
    (urlList : List String) : Option (List ModListing × List ModListing) :=
  match collectLoop page fuel [] urlList.dedup urlList.dedup with
  | none => none
  | some (listings, finalUrls) =>
    some (listings.take (finalUrls.length - 1), listings.drop (finalUrls.length - 1))

/-! ## Paths, trees and the installer (`extract_mod` of `src/updater.py`) -/

/-- Splits a list of characters into path segments at `/`. -/
def splitAux : List Char → List Char → List String
  | [], acc => [String.mk acc.reverse]
  | c :: cs, acc =>
    if c = '/' then String.mk acc.reverse :: splitAux cs []
    else splitAux cs (c :: acc)

/-- `pathlib.Path(s).parts` for the archive entry names that occur in zip
files: the segments of `s` between `/` separators. -/
def pathParts (s : String) : List String := splitAux s.data []

/-- `str.lower()` for the ASCII folder names compared by `extract_mod`. -/
def lowerStr (s : String) : String := String.mk (s.data.map Char.toLower)

/-- `LV1_FOLDER_NAME` of `src/updater.py`. -/
def LV1_FOLDER_NAME : String := "BepInEx"

/-- `LVL2_FOLDER_NAMES` of `src/updater.py`. -/
def LVL2_FOLDER_NAMES : List String := ["cache", "config", "core", "patchers", "plugins"]

/-- The metadata-only entry names excluded by `extract_mod`. -/
def EXCLUDED_NAMES : List String := ["icon.png", "manifest.json", "README.md", "CHANGELOG.md"]

/-- One member of a zip archive: its name inside the archive and its byte
content (abstracted as a string). -/
structure ArchiveEntry where
  name : String
  content : String
deriving DecidableEq, Repr

/-- A file tree: an association list from absolute paths (lists of
segments) to file contents. -/
abbrev Tree := List (List String × String)

/-- Look up the content of the file at path `p`, if any. -/
def getFile : Tree → List String → Option String
  | [], _ => none
  | e :: t, p => if e.1 == p then some e.2 else getFile t p

/-- Write content `c` at path `p`, overwriting any file already there. -/
def writeFile (t : Tree) (p : List String) (c : String) : Tree :=
  t.filter (fun e => !(e.1 == p)) ++ [(p, c)]

/-- `dir` is a (non-strict) ancestor directory of path `p`. -/
def underDir : List String → List String → Bool
  | [], _ => true
  | _ :: _, [] => false
  | d :: ds, s :: ss => d == s && underDir ds ss

/-- The `contents` list of `extract_mod`: the archive entries whose names
are not in the excluded metadata-only list. -/
def modContents (archive : List ArchiveEntry) : List ArchiveEntry :=
  archive.filter (fun e => !(EXCLUDED_NAMES.contains e.name))

/-- The `paths` list of `extract_mod`. -/
def archivePaths (contents : List ArchiveEntry) : List (List String) :=
  contents.map (fun e => pathParts e.name)

/-- The `is_bepinex` test of `extract_mod`: some entry's first path segment
equals `BepInExPack` (case-sensitively). -/
def isBepinexPack (paths : List (List String)) : Bool :=
  paths.any (fun p => p.headD "" == "BepInExPack")

/-- The `extract_path` chain of `extract_mod`, in the source's order:
`BepInExPack` first segment → base; first segment lowering to the loader
folder name → base; first segment lowering to a level-2 folder name →
base + loader folder; otherwise → base + loader folder + `plugins`. -/
def extractRoot (base : List String) (paths : List (List String)) : List String :=
  if isBepinexPack paths then base
  else if paths.any (fun p => lowerStr (p.headD "") == lowerStr LV1_FOLDER_NAME) then base
  else if paths.any
      (fun p => (LVL2_FOLDER_NAMES.map lowerStr).contains (lowerStr (p.headD ""))) then
    base ++ [LV1_FOLDER_NAME]
  else base ++ [LV1_FOLDER_NAME, "plugins"]

/-- The `BepInExPack` directory sitting under a destination root. -/
def packDir (root : List String) : List String := root ++ ["BepInExPack"]

/-- The extraction loop of `extract_mod`: `file.extract(content, extract_path)`
for every remaining entry, i.e. a write of each entry's content at the
destination root extended by the entry's relative path. -/
def extractWrites (root : List String) (contents : List ArchiveEntry) (t : Tree) : Tree :=
  contents.foldl (fun acc e => writeFile acc (root ++ pathParts e.name) e.content) t

/-- The `is_bepinex` merge step of `extract_mod`:
`shutil.copytree(pack_path, extract_path, dirs_exist_ok=True)` followed by
`shutil.rmtree(pack_path)` — every file under `root/BepInExPack/**` is
copied (overwriting) to the corresponding path under `root/**`, and then
everything still under `root/BepInExPack` is removed. -/
def bepinexMerge (t : Tree) (root : List String) : Tree :=
  ((t.filterMap (fun e =>
      if underDir (packDir root) e.1 then
        some (root ++ e.1.drop (packDir root).length, e.2)
      else none)).foldl
    (fun acc e => writeFile acc e.1 e.2) t).filter
    (fun e => !(underDir (packDir root) e.1))

/-- `extract_mod` of `src/updater.py`: filter out the excluded metadata
entries, classify the archive by its entries' first path segments, extract
every remaining entry under the destination root, and for a `BepInExPack`
archive merge the pack directory up into the root. -/
def extract_mod (base : List String) (archive : List ArchiveEntry) (t : Tree) : Tree :=
  if isBepinexPack (archivePaths (modContents archive)) then
    bepinexMerge
      (extractWrites (extractRoot base (archivePaths (modContents archive)))
        (modContents archive) t)
      (extractRoot base (archivePaths (modContents archive)))
  else
    extractWrites (extractRoot base (archivePaths (modContents archive)))
      (modContents archive) t

/-! ## Orchestration (`__main` of `src/updater.py`) -/

/-- The download-and-extract phase of `__main`: `all_mods` is
`original_mods` followed by `dependencies`, the archive of each mod is
fetched (abstracted as `getArchive`), and `extract_mod` is applied to the
archives in reversed list order. -/
def install_all (base : List String) (getArchive : ModListing → List ArchiveEntry)
    (original_mods : List ModListing) (dependencies : List ModListing) (t : Tree) : Tree :=
  ((original_mods ++ dependencies).reverse).foldl
    (fun acc m => extract_mod base (getArchive m) acc) t

/-! ## Placement modes as the spec words them (§4.2) -/

/-- The four placement modes of spec §4.2. -/
inductive PlacementMode
  | modeA
  | modeB
  | modeC
  | modeD
deriving DecidableEq, Repr

/-- Spec §4.2 classification, following the spec's words: BepInExPack
case-sensitive → mode A; loader folder name case-insensitive → mode B; one
of the five fixed subfolder names case-insensitive → mode C; otherwise
mode D; tested in this precedence order. -/
def specMode (paths : List (List String)) : PlacementMode :=
  if paths.any (fun p => p.headD "" == "BepInExPack") then .modeA
  else if paths.any (fun p => lowerStr (p.headD "") == "bepinex") then .modeB
  else if paths.any
      (fun p => (["cache", "config", "core", "patchers", "plugins"] : List String).contains
        (lowerStr (p.headD ""))) then .modeC
  else .modeD

/-- Spec §4.2 destination roots: modes A and B → base path; mode C → base
path + loader folder; mode D → base path + loader folder + `plugins`. -/
def specRoot (base : List String) : PlacementMode → List String
  | .modeA => base
  | .modeB => base
  | .modeC => base ++ ["BepInEx"]
  | .modeD => base ++ ["BepInEx", "plugins"]

/-! ## The resolver when a metadata fetch can fail

`get_data_from_url` of `src/updater.py` calls `exit_failure` with a message
naming the url when the request raises or returns a non-200 code, so a
failing metadata fetch terminates the whole program before any archive is
downloaded or any tree is created.  The failing fetch is modelled as
`page url = none`, and the program exit as an `Except.error` carrying the
offending url, which short-circuits the rest of the run. -/

/-- `get_mod_listing` over a fallible page fetch: a failed fetch aborts,
identifying the queried url. -/
def get_mod_listingE (page : String → Option PageData) (url : String) :
    Except String ModListing :=
  match page url with
  | some d => .ok ⟨d.name, url, d.last_updated, d.version, d.download, d.dependencies⟩
  | none => .error url

/-- Queries one frontier in order, stopping at the first failing url. -/
def queryFrontier (page : String → Option PageData) :
    List String → Except String (List ModListing)
  | [] => .ok []
  | u :: us =>
    match get_mod_listingE page u with
    | .error v => .error v
    | .ok l =>
      match queryFrontier page us with
      | .error v => .error v
      | .ok ls => .ok (l :: ls)

/-- The loop of `collect_mod_data` over a fallible page fetch. -/
def collectLoopE (page : String → Option PageData) :
    Nat → List ModListing → List String → List String →
    Option (Except String (List ModListing × List String))
  | 0, _, _, _ => none
  | fuel + 1, listings, urls, newUrls =>
    match queryFrontier page newUrls with
    | .error v => some (.error v)
    | .ok newListings =>
      let listings2 := listings ++ newListings
      let newUrls2 :=
        ((newListings.map ModListing.dependencies).flatten.dedup).filter
          (fun d => !(urls.contains d))
      if newUrls2.isEmpty then some (.ok (listings2, urls))
      else collectLoopE page fuel listings2 (urls ++ newUrls2) newUrls2

/-- `collect_mod_data` over a fallible page fetch. -/
def collect_mod_dataE (page : String → Option PageData) (fuel : Nat)
    (urlList : List String) :
    Option (Except String (List ModListing × List ModListing)) :=
  match collectLoopE page fuel [] urlList.dedup urlList.dedup with
  | none => none
  | some (.error v) => some (.error v)
  | some (.ok (listings, finalUrls)) =>
    some (.ok (listings.take (finalUrls.length - 1),
      listings.drop (finalUrls.length - 1)))

/-- The pipeline of `__main`: resolve first, and only on success download
the archives, create the tree and extract; a failed metadata fetch
terminates the program while the target tree does not yet exist. -/
def run_pipeline (page : String → Option PageData)
    (getArchive : ModListing → List ArchiveEntry) (fuel : Nat)
    (seeds : List String) (base : List String) :
    Option (Except String Tree) :=
  match collect_mod_dataE page fuel seeds with
  | none => none
  | some (.error v) => some (.error v)
  | some (.ok (orig, deps)) => some (.ok (install_all base getArchive orig deps []))

/-! ## The dependency closure of a seed set (spec §3, §4.1) -/

/-- The dependency closure of a seed list under `page`: the least set of
references containing the seeds and closed under the dependencies reported
for each member. -/
inductive InClosure (page : String → PageData) (seeds : List String) : String → Prop
  | seed {u : String} : u ∈ seeds → InClosure page seeds u
  | dep {u d : String} : InClosure page seeds u → d ∈ (page u).dependencies →
      InClosure page seeds d

/-! ## Concrete instances used by the claims' examples and witnesses -/

/-- A page function where every mod has no dependencies. -/
def c1Page : String → PageData := fun _ => ⟨"ModA", 0, "1.0.0", "dlA", []⟩

/-- The listing `collect_mod_data` builds for url `A` under `c1Page`. -/
def c1A : ModListing := ⟨"ModA", "A", 0, "1.0.0", "dlA", []⟩

/-- A page function where requested mod `R` depends on `D`. -/
def c2Page : String → PageData := fun u =>
  if u == "R" then ⟨"ModR", 0, "1.0", "dlR", ["D"]⟩
  else ⟨"ModD", 0, "1.0", "dlD", []⟩

/-- The listing resolved for `R` under `c2Page`. -/
def c2R : ModListing := ⟨"ModR", "R", 0, "1.0", "dlR", ["D"]⟩

/-- The listing resolved for `D` under `c2Page`. -/
def c2D : ModListing := ⟨"ModD", "D", 0, "1.0", "dlD", []⟩

/-- Archives: both `R` and `D` ship a file at the same relative path
`plugins/x.dll`, with contents `R` and `D` respectively. -/
def c2Arch : ModListing → List ArchiveEntry := fun m =>
  if m.url == "R" then [⟨"plugins/x.dll", "R"⟩] else [⟨"plugins/x.dll", "D"⟩]

/-- A page function with a two-element dependency cycle: `A` depends on
`B` and `B` depends on `A`. -/
def c5Page : String → PageData := fun u =>
  if u == "A" then ⟨"MA", 0, "1", "dA", ["B"]⟩
  else if u == "B" then ⟨"MB", 0, "1", "dB", ["A"]⟩
  else ⟨"", 0, "", "", []⟩

/-- The listing resolved for `A` under `c5Page`. -/
def c5A : ModListing := ⟨"MA", "A", 0, "1", "dA", ["B"]⟩

/-- The listing resolved for `B` under `c5Page`. -/
def c5B : ModListing := ⟨"MB", "B", 0, "1", "dB", ["A"]⟩

/-- A fallible page function where the fetch for `A` fails. -/
def c9Page : String → Option PageData := fun u =>
  if u == "A" then none else some ⟨"N", 0, "1", "dl", []⟩

/-- An archive source used to instantiate the pipeline. -/
def c9Arch : ModListing → List ArchiveEntry := fun _ => []

/-- The mode-A archive of the loader-core merge example. -/
def c7Archive : List ArchiveEntry := [⟨"BepInExPack/core/loader.dll", "L"⟩]

/-- A mode-A archive with a nested `BepInExPack` segment below the
top-level `BepInExPack` folder. -/
def c7Nested : List ArchiveEntry :=
  [⟨"BepInExPack/x.dll", "X"⟩, ⟨"BepInExPack/BepInExPack/y.dll", "Y"⟩]

/-- An archive consisting only of excluded metadata entries. -/
def c10Archive : List ArchiveEntry :=
  [⟨"icon.png", "i"⟩, ⟨"manifest.json", "m"⟩, ⟨"README.md", "r"⟩, ⟨"CHANGELOG.md", "c"⟩]

/-- A pre-existing target tree. -/
def c10Tree : Tree := [(["base", "BepInEx", "plugins", "old.dll"], "O")]

/-! ## Basic facts about trees, writes and directories -/

theorem getFile_cons (e : List String × String) (t : Tree) (p : List String) :
    getFile (e :: t) p = if e.1 == p then some e.2 else getFile t p := rfl

theorem getFile_writeFile_same (t : Tree) (p : List String) (c : String) :
    getFile (writeFile t p c) p = some c := by
  unfold writeFile
  induction t with
  | nil => simp [getFile_cons, getFile]
  | cons e es ih =>
    by_cases h : e.1 = p
    · rw [List.filter_cons, if_neg (by simp [h])]
      exact ih
    · rw [List.filter_cons, if_pos (by simp [h]), List.cons_append, getFile_cons,
        if_neg (by simp [h])]
      exact ih

theorem getFile_writeFile_ne (t : Tree) (p q : List String) (c : String) (h : q ≠ p) :
    getFile (writeFile t p c) q = getFile t q := by
  unfold writeFile
  induction t with
  | nil =>
    simp only [List.filter_nil, List.nil_append, getFile_cons, getFile]
    rw [if_neg (by simp; exact fun hh => h hh.symm)]
  | cons e es ih =>
    by_cases he : e.1 = p
    · rw [List.filter_cons, if_neg (by simp [he]), getFile_cons,
        if_neg (by simp [he]; exact fun hh => h hh.symm)]
      exact ih
    · rw [List.filter_cons, if_pos (by simp [he]), List.cons_append, getFile_cons,
        getFile_cons]
      by_cases heq : e.1 = q
      · rw [if_pos (by simp [heq]), if_pos (by simp [heq])]
      · rw [if_neg (by simp [heq]), if_neg (by simp [heq])]
        exact ih

theorem getFile_isSome_writeFile (t : Tree) (p q : List String) (c : String)
    (h : (getFile t q).isSome = true) :
    (getFile (writeFile t p c) q).isSome = true := by
  by_cases hqp : q = p
  · subst hqp
    simp [getFile_writeFile_same]
  · rw [getFile_writeFile_ne t p q c hqp]
    exact h

theorem getFile_mem (t : Tree) (p : List String) (c : String)
    (h : getFile t p = some c) : (p, c) ∈ t := by
  induction t with
  | nil => simp [getFile] at h
  | cons e es ih =>
    obtain ⟨a, b⟩ := e
    rw [getFile_cons] at h
    by_cases he : a = p
    · rw [if_pos (by simp [he])] at h
      injection h with hbc
      subst he
      subst hbc
      exact List.mem_cons_self _ _
    · rw [if_neg (by simp [he])] at h
      exact List.mem_cons_of_mem _ (ih h)

theorem getFile_filter_of_pred (P : List String → Bool) (t : Tree) (p : List String)
    (hp : P p = true) :
    getFile (t.filter (fun e => P e.1)) p = getFile t p := by
  induction t with
  | nil => rfl
  | cons e es ih =>
    by_cases he : e.1 = p
    · rw [List.filter_cons, if_pos (by rw [he]; exact hp), getFile_cons, getFile_cons,
        if_pos (by simp [he]), if_pos (by simp [he])]
    · by_cases hPe : P e.1 = true
      · rw [List.filter_cons, if_pos hPe, getFile_cons, getFile_cons,
        if_neg (by simp [he]), if_neg (by simp [he])]
        exact ih
      · rw [List.filter_cons, if_neg hPe, ih, getFile_cons, if_neg (by simp [he])]

theorem foldWrite_present (ps : List (List String × String)) (t : Tree) (q : List String)
    (h : (getFile t q).isSome = true ∨ ∃ e ∈ ps, e.1 = q) :
    (getFile (ps.foldl (fun acc e => writeFile acc e.1 e.2) t) q).isSome = true := by
  induction ps generalizing t with
  | nil =>
    rcases h with h | h
    · simpa using h
    · simp at h
  | cons e es ih =>
    simp only [List.foldl_cons]
    apply ih
    rcases h with h | h
    · exact Or.inl (getFile_isSome_writeFile t e.1 q e.2 h)
    · rcases h with ⟨e', he', hq⟩
      rcases List.mem_cons.1 he' with rfl | he'
      · subst hq
        exact Or.inl (by simp [getFile_writeFile_same])
      · exact Or.inr ⟨e', he', hq⟩

theorem extractWrites_present (root : List String) (es : List ArchiveEntry) (t : Tree)
    (q : List String)
    (h : (getFile t q).isSome = true ∨ ∃ e ∈ es, root ++ pathParts e.name = q) :
    (getFile (extractWrites root es t) q).isSome = true := by
  unfold extractWrites
  induction es generalizing t with
  | nil =>
    rcases h with h | h
    · simpa using h
    · simp at h
  | cons e es ih =>
    simp only [List.foldl_cons]
    apply ih
    rcases h with h | h
    · exact Or.inl (getFile_isSome_writeFile t _ q e.content h)
    · rcases h with ⟨e', he', hq⟩
      rcases List.mem_cons.1 he' with rfl | he'
      · subst hq
        exact Or.inl (by simp [getFile_writeFile_same])
      · exact Or.inr ⟨e', he', hq⟩

theorem underDir_append (d r : List String) : underDir d (d ++ r) = true := by
  induction d with
  | nil => rfl
  | cons a ds ih => simp [underDir, ih]

theorem underDir_append_left (b x y : List String) :
    underDir (b ++ x) (b ++ y) = underDir x y := by
  induction b with
  | nil => rfl
  | cons a bs ih => simp [underDir, ih]

theorem modContents_idem (a : List ArchiveEntry) :
    modContents (modContents a) = modContents a := by
  unfold modContents
  induction a with
  | nil => rfl
  | cons e es ih =>
    by_cases hm : e.name ∈ EXCLUDED_NAMES
    · rw [List.filter_cons, if_neg (by simp [hm])]
      exact ih
    · rw [List.filter_cons, if_pos (by simp [hm]), List.filter_cons,
        if_pos (by simp [hm]), ih]

theorem modContents_eq_nil (a : List ArchiveEntry)
    (h : ∀ e ∈ a, e.name ∈ EXCLUDED_NAMES) : modContents a = [] := by
  unfold modContents
  induction a with
  | nil => rfl
  | cons e es ih =>
    have he : e.name ∈ EXCLUDED_NAMES := h e (by simp)
    rw [List.filter_cons, if_neg (by simp [he])]
    exact ih (fun e' he' => h e' (List.mem_cons_of_mem _ he'))

theorem extractRoot_eq_specRoot (base : List String) (paths : List (List String)) :
    extractRoot base paths = specRoot base (specMode paths) := by
  unfold extractRoot specMode isBepinexPack
  rw [show lowerStr LV1_FOLDER_NAME = "bepinex" from by decide,
    show LVL2_FOLDER_NAMES.map lowerStr =
      (["cache", "config", "core", "patchers", "plugins"] : List String) from by decide]
  by_cases hA : (paths.any fun p => p.headD "" == "BepInExPack") = true
  · rw [if_pos hA, if_pos hA]
    rfl
  · rw [if_neg hA, if_neg hA]
    by_cases hB : (paths.any fun p => lowerStr (p.headD "") == "bepinex") = true
    · rw [if_pos hB, if_pos hB]
      rfl
    · rw [if_neg hB, if_neg hB]
      by_cases hC : (paths.any fun p =>
          (["cache", "config", "core", "patchers", "plugins"] : List String).contains
            (lowerStr (p.headD ""))) = true
      · rw [if_pos hC, if_pos hC]
        rfl
      · rw [if_neg hC, if_neg hC]
        rfl

/-! ## Claim theorems: installer side -/

/-- C1: the claim states that the count of `requested` records equals the
number of distinct seed references resolved in the first frontier.  The
code instead slices the accumulated list at `len(urls) - 1`, the size of
the final seen set minus one.  Evaluating at the seed list `["A"]` where
`A` has no dependencies: the first (and only) frontier resolves one
distinct seed reference, yet `requested` comes out empty and the seed
itself is misclassified as a transitive dependency. -/
theorem c1_boundary_off_by_one :
    collect_mod_data c1Page 2 ["A"] = some ([], [c1A])
    ∧ (["A"] : List String).dedup.length = 1 := by
  constructor
  · rfl
  · rfl

/-- C2: the Installer is invoked over the full resolved list in the order
all transitive records first (in reverse discovery order) then all
requested records last (in reverse discovery order); and in the concrete
scenario where requested `R` and its dependency `D` both ship
`plugins/x.dll`, the final tree holds `R`'s content at that path. -/
theorem c2_install_order_and_priority :
    (∀ (base : List String) (g : ModListing → List ArchiveEntry)
        (orig deps : List ModListing) (t : Tree),
      install_all base g orig deps t =
        (deps.reverse ++ orig.reverse).foldl
          (fun acc m => extract_mod base (g m) acc) t)
    ∧ collect_mod_data c2Page 3 ["R"] = some ([c2R], [c2D])
    ∧ install_all [] c2Arch [c2R] [c2D] [] =
        [(["BepInEx", "plugins", "x.dll"], "R")] := by
  refine ⟨fun base g orig deps t => ?_, rfl, rfl⟩
  unfold install_all
  rw [List.reverse_append]

/-- C6: the destination root computed by `extract_mod` coincides with the
spec's four-mode classification (`specMode`, tested in the spec's
precedence order) composed with the spec's per-mode roots (`specRoot`);
an archive whose sole top-level folder is `plugins` (any case) is mode C
and lands under the loader folder, and an archive whose sole entry is
`MyMod/mod.dll` is mode D and lands under `plugins`. -/
theorem c6_classification :
    (∀ (base : List String) (archive : List ArchiveEntry),
      extractRoot base (archivePaths (modContents archive)) =
        specRoot base (specMode (archivePaths (modContents archive))))
    ∧ specMode (archivePaths (modContents [⟨"PLUGINS/a.dll", "x"⟩])) = .modeC
    ∧ extract_mod [] [⟨"PLUGINS/a.dll", "x"⟩] [] =
        [(["BepInEx", "PLUGINS", "a.dll"], "x")]
    ∧ specMode (archivePaths (modContents [⟨"MyMod/mod.dll", "x"⟩])) = .modeD
    ∧ extract_mod [] [⟨"MyMod/mod.dll", "x"⟩] [] =
        [(["BepInEx", "plugins", "MyMod", "mod.dll"], "x")] :=
  ⟨fun base archive => extractRoot_eq_specRoot base (archivePaths (modContents archive)),
    by decide, by decide, by decide, by decide⟩

/-- C8: excluded metadata-only entries are filtered out before
classification and never written: an archive installs exactly as the same
archive with those entries removed, and in particular a `manifest.json`
entry leaves no trace in the destination tree. -/
theorem c8_excluded_never_written :
    (∀ (base : List String) (archive : List ArchiveEntry) (t : Tree),
      extract_mod base archive t = extract_mod base (modContents archive) t)
    ∧ extract_mod [] [⟨"manifest.json", "m"⟩, ⟨"a.dll", "x"⟩] [] =
        [(["BepInEx", "plugins", "a.dll"], "x")] := by
  refine ⟨fun base archive t => ?_, by decide⟩
  unfold extract_mod
  rw [modContents_idem]

/-- C10: an archive all of whose entries bear excluded metadata-only names
is classified as the default mode D, and installing it changes nothing:
the target tree is returned unaltered. -/
theorem c10_all_excluded_noop (base : List String) (archive : List ArchiveEntry)
    (t : Tree) (h : ∀ e ∈ archive, e.name ∈ EXCLUDED_NAMES) :
    specMode (archivePaths (modContents archive)) = .modeD
    ∧ extractRoot base (archivePaths (modContents archive)) =
        base ++ ["BepInEx", "plugins"]
    ∧ extract_mod base archive t = t := by
  have h0 : modContents archive = [] := modContents_eq_nil archive h
  refine ⟨?_, ?_, ?_⟩
  · rw [h0]
    rfl
  · rw [h0]
    rfl
  · unfold extract_mod
    rw [h0]
    rfl

/-- Witness for C10 at a concrete archive holding exactly the four
excluded names, over a non-empty pre-existing tree. -/
theorem c10_all_excluded_noop_witness :
    specMode (archivePaths (modContents c10Archive)) = .modeD
    ∧ extractRoot ["base"] (archivePaths (modContents c10Archive)) =
        ["base"] ++ ["BepInEx", "plugins"]
    ∧ extract_mod ["base"] c10Archive c10Tree = c10Tree :=
  c10_all_excluded_noop ["base"] c10Archive c10Tree (by decide)

/-- C7 counterexample: in the mode-A archive `c7Nested`, the file
`BepInExPack/BepInExPack/y.dll` sits under the archive's `BepInExPack`
top-level folder, so the claim requires it at `BepInExPack/y.dll` under
the destination root; but the final removal of the `BepInExPack` subfolder
deletes the copy, so the final tree holds nothing at that path (indeed the
file's content survives nowhere). -/
theorem c7_nested_pack_counterexample :
    getFile (extract_mod [] c7Nested []) ["BepInExPack", "y.dll"] = none
    ∧ extract_mod [] c7Nested [] = [(["x.dll"], "X")] := by
  constructor
  · rfl
  · rfl

/-- C7 (amended): for a mode-A archive, every non-excluded file under the
archive's `BepInExPack` top-level folder whose path below `BepInExPack`
does not itself start with another `BepInExPack` segment ends up present
at the corresponding path directly under the destination root, and no
file under a `BepInExPack` subfolder of the destination root remains. -/
theorem c7_loader_core_merge (base : List String) (archive : List ArchiveEntry)
    (t : Tree) (e : ArchiveEntry) (rest : List String)
    (he : e ∈ archive)
    (hname : e.name ∉ EXCLUDED_NAMES)
    (hparts : pathParts e.name = "BepInExPack" :: rest)
    (hnest : rest.headD "" ≠ "BepInExPack") :
    (getFile (extract_mod base archive t) (base ++ rest)).isSome = true
    ∧ ∀ q ∈ extract_mod base archive t, underDir (packDir base) q.1 = false := by
  have hce : e ∈ modContents archive := by
    unfold modContents
    exact List.mem_filter.2 ⟨he, by simp [hname]⟩
  have hbep : isBepinexPack (archivePaths (modContents archive)) = true := by
    unfold isBepinexPack archivePaths
    refine List.any_eq_true.2 ⟨pathParts e.name, List.mem_map.2 ⟨e, hce, rfl⟩, ?_⟩
    rw [hparts]
    rfl
  have hroot : extractRoot base (archivePaths (modContents archive)) = base := by
    unfold extractRoot
    rw [if_pos hbep]
  have hnd : underDir (packDir base) (base ++ rest) = false := by
    unfold packDir
    rw [underDir_append_left]
    cases rest with
    | nil => rfl
    | cons r rs =>
      have h1 : r ≠ "BepInExPack" := by simpa using hnest
      have h2 : ¬("BepInExPack" = r) := fun hh => h1 hh.symm
      simp [underDir, h2]
  unfold extract_mod
  rw [if_pos hbep, hroot]
  set t2 := extractWrites base (modContents archive) t with ht2
  have hpres : (getFile t2 (base ++ pathParts e.name)).isSome = true := by
    exact extractWrites_present base (modContents archive) t _
      (Or.inr ⟨e, hce, rfl⟩)
  obtain ⟨c, hc⟩ := Option.isSome_iff_exists.1 hpres
  have hmem : (base ++ pathParts e.name, c) ∈ t2 := getFile_mem t2 _ c hc
  have hpath : base ++ pathParts e.name = packDir base ++ rest := by
    rw [hparts]
    unfold packDir
    rw [List.append_assoc]
    rfl
  constructor
  · unfold bepinexMerge
    rw [getFile_filter_of_pred (fun q => !(underDir (packDir base) q)) _ _
      (by show (!(underDir (packDir base) (base ++ rest))) = true
          rw [hnd]
          rfl)]
    apply foldWrite_present
    refine Or.inr ⟨(base ++ rest, c), ?_, rfl⟩
    refine List.mem_filterMap.2 ⟨(packDir base ++ rest, c), ?_, ?_⟩
    · rw [← hpath]
      exact hmem
    · rw [if_pos (by rw [underDir_append])]
      rw [List.drop_left]
  · intro q hq
    unfold bepinexMerge at hq
    have := List.mem_filter.1 hq
    simpa using this.2

/-- Witness for C7's amended theorem at the loader-core example archive:
`BepInExPack/core/loader.dll` ends up at `core/loader.dll` under the
destination root, and nothing remains under `BepInExPack`. -/
theorem c7_loader_core_merge_witness :
    (getFile (extract_mod [] c7Archive []) ([] ++ ["core", "loader.dll"])).isSome = true
    ∧ ∀ q ∈ extract_mod [] c7Archive [], underDir (packDir []) q.1 = false :=
  c7_loader_core_merge [] c7Archive [] ⟨"BepInExPack/core/loader.dll", "L"⟩
    ["core", "loader.dll"] (by decide) (by decide) (by decide) (by decide)

/-! ## Invariants of the resolution loop -/

theorem map_url_get_mod_listing (page : String → PageData) (us : List String) :
    (us.map (get_mod_listing page)).map ModListing.url = us := by
  induction us with
  | nil => rfl
  | cons u us ih => simp [get_mod_listing, ih]

theorem mem_newUrls2 (page : String → PageData) (newUrls urls : List String)
    (d : String) :
    d ∈ ((((newUrls.map (get_mod_listing page)).map
          ModListing.dependencies).flatten.dedup).filter
        (fun x => !(urls.contains x))) ↔
      (∃ u ∈ newUrls, d ∈ (page u).dependencies) ∧ d ∉ urls := by
  simp [List.mem_filter, List.mem_dedup, List.mem_flatten, List.mem_map,
    get_mod_listing]

/-- The inductive invariant of the loop of `collect_mod_data`.  At the
entry of an iteration: the urls of the accumulated listings followed by
the frontier are pairwise distinct (each reference queried at most once);
every queried or about-to-be-queried reference is in the seen set and
conversely every seen reference has been or is about to be queried; the
dependencies of every accumulated listing are in the seen set; every
accumulated listing is the result of querying its own url; and every seen
reference belongs to the dependency closure of the seeds. -/
theorem collectLoop_invariant (page : String → PageData) (seeds : List String) :
    ∀ (fuel : Nat) (listings : List ModListing) (urls newUrls : List String)
      (L : List ModListing) (U : List String),
      collectLoop page fuel listings urls newUrls = some (L, U) →
      (listings.map ModListing.url ++ newUrls).Nodup →
      (∀ x ∈ listings.map ModListing.url ++ newUrls, x ∈ urls) →
      (∀ x ∈ urls, x ∈ listings.map ModListing.url ∨ x ∈ newUrls) →
      (∀ l ∈ listings, ∀ d ∈ l.dependencies, d ∈ urls) →
      (∀ l ∈ listings, l = get_mod_listing page l.url) →
      (∀ x ∈ urls, InClosure page seeds x) →
      (L.map ModListing.url).Nodup
      ∧ (∀ x, x ∈ U ↔ x ∈ L.map ModListing.url)
      ∧ (∀ x ∈ urls, x ∈ U)
      ∧ (∀ l ∈ L, ∀ d ∈ l.dependencies, d ∈ U)
      ∧ (∀ l ∈ L, l = get_mod_listing page l.url)
      ∧ (∀ x ∈ U, InClosure page seeds x) := by
  intro fuel
  induction fuel with
  | zero =>
    intro listings urls newUrls L U h
    simp [collectLoop] at h
  | succ fuel ih =>
    intro listings urls newUrls L U h hnd hsub hcov hcl hpr hic
    simp only [collectLoop] at h
    set nl := newUrls.map (get_mod_listing page) with hnl
    set n2 := (((nl.map ModListing.dependencies).flatten.dedup).filter
      (fun d => !(urls.contains d))) with hn2
    have hmapnl : nl.map ModListing.url = newUrls := map_url_get_mod_listing page newUrls
    have hl2map : (listings ++ nl).map ModListing.url =
        listings.map ModListing.url ++ newUrls := by
      rw [List.map_append, hmapnl]
    have hprov2 : ∀ l ∈ listings ++ nl, l = get_mod_listing page l.url := by
      intro l hl
      rcases List.mem_append.1 hl with hl | hl
      · exact hpr l hl
      · obtain ⟨u, _, rfl⟩ := List.mem_map.1 hl
        rfl
    have hmemn2 : ∀ d, d ∈ n2 ↔ (∃ u ∈ newUrls, d ∈ (page u).dependencies) ∧ d ∉ urls :=
      fun d => mem_newUrls2 page newUrls urls d
    by_cases hemp : n2.isEmpty = true
    · rw [if_pos hemp] at h
      have hn2nil : n2 = [] := List.isEmpty_iff.1 hemp
      obtain ⟨hL, hU⟩ : listings ++ nl = L ∧ urls = U := by
        simpa using h
      subst hL
      subst hU
      refine ⟨?_, ?_, fun x hx => hx, ?_, hprov2, hic⟩
      · rw [hl2map]
        exact hnd
      · intro x
        constructor
        · intro hx
          rw [hl2map]
          rcases hcov x hx with hx2 | hx2
          · exact List.mem_append.2 (Or.inl hx2)
          · exact List.mem_append.2 (Or.inr hx2)
        · intro hx
          rw [hl2map] at hx
          exact hsub x hx
      · intro l hl d hd
        rcases List.mem_append.1 hl with hl | hl
        · exact hcl l hl d hd
        · by_cases hdu : d ∈ urls
          · exact hdu
          · exfalso
            obtain ⟨u, hu, rfl⟩ := List.mem_map.1 hl
            have : d ∈ n2 := (hmemn2 d).2 ⟨⟨u, hu, hd⟩, hdu⟩
            rw [hn2nil] at this
            simp at this
    · rw [if_neg hemp] at h
      have hn2ne : n2 ≠ [] := fun hh => hemp (by rw [hh]; rfl)
      have hn2nd : n2.Nodup := List.Nodup.filter _ (List.nodup_dedup _)
      have hdisj : (listings.map ModListing.url ++ newUrls).Disjoint n2 := by
        intro a ha han2
        exact ((hmemn2 a).1 han2).2 (hsub a ha)
      obtain ⟨cnd, ciff, cmon, ccl, cpr, cic⟩ :=
        ih (listings ++ nl) (urls ++ n2) n2 L U h
          (by
            rw [hl2map]
            exact List.nodup_append.2 ⟨hnd, hn2nd, hdisj⟩)
          (by
            intro x hx
            rcases List.mem_append.1 hx with hx | hx
            · rw [hl2map] at hx
              exact List.mem_append.2 (Or.inl (hsub x hx))
            · exact List.mem_append.2 (Or.inr hx))
          (by
            intro x hx
            rcases List.mem_append.1 hx with hx | hx
            · rcases hcov x hx with hx2 | hx2
              · exact Or.inl (by rw [hl2map]; exact List.mem_append.2 (Or.inl hx2))
              · exact Or.inl (by rw [hl2map]; exact List.mem_append.2 (Or.inr hx2))
            · exact Or.inr hx)
          (by
            intro l hl d hd
            rcases List.mem_append.1 hl with hl | hl
            · exact List.mem_append.2 (Or.inl (hcl l hl d hd))
            · by_cases hdu : d ∈ urls
              · exact List.mem_append.2 (Or.inl hdu)
              · obtain ⟨u, hu, rfl⟩ := List.mem_map.1 hl
                exact List.mem_append.2 (Or.inr ((hmemn2 d).2 ⟨⟨u, hu, hd⟩, hdu⟩)))
          hprov2
          (by
            intro x hx
            rcases List.mem_append.1 hx with hx | hx
            · exact hic x hx
            · obtain ⟨⟨u, hu, hd⟩, _⟩ := (hmemn2 x).1 hx
              have huin : u ∈ urls := hsub u (List.mem_append.2 (Or.inr hu))
              exact InClosure.dep (hic u huin) hd)
      exact ⟨cnd, ciff, fun x hx => cmon x (List.mem_append.2 (Or.inl hx)), ccl, cpr, cic⟩

/-- Transfer of the loop invariant to `collect_mod_data`: the urls of the
returned records are pairwise distinct, each record is the result of
querying its own url, the record set is dependency-closed, and its url set
is exactly the dependency closure of the seed list. -/
theorem collect_mod_data_invariant (page : String → PageData) (fuel : Nat)
    (seeds : List String) (req dep : List ModListing)
    (h : collect_mod_data page fuel seeds = some (req, dep)) :
    ((req ++ dep).map ModListing.url).Nodup
    ∧ (∀ l ∈ req ++ dep, l = get_mod_listing page l.url)
    ∧ (∀ l ∈ req ++ dep, ∀ d ∈ l.dependencies, ∃ l2 ∈ req ++ dep, l2.url = d)
    ∧ (∀ u, u ∈ (req ++ dep).map ModListing.url ↔ InClosure page seeds u) := by
  unfold collect_mod_data at h
  cases hres : collectLoop page fuel [] seeds.dedup seeds.dedup with
  | none =>
    rw [hres] at h
    simp at h
  | some r =>
    obtain ⟨L, U⟩ := r
    rw [hres] at h
    obtain ⟨hreq, hdep⟩ : L.take (U.length - 1) = req ∧ L.drop (U.length - 1) = dep := by
      simpa using h
    have hLrd : req ++ dep = L := by
      rw [← hreq, ← hdep, List.take_append_drop]
    obtain ⟨cnd, ciff, cmon, ccl, cpr, cic⟩ :=
      collectLoop_invariant page seeds fuel [] seeds.dedup seeds.dedup L U hres
        (by simpa using List.nodup_dedup seeds)
        (by intro x hx; simpa using hx)
        (fun x hx => Or.inr hx)
        (by intro l hl; simp at hl)
        (by intro l hl; simp at hl)
        (fun x hx => InClosure.seed (List.mem_dedup.1 hx))
    rw [hLrd]
    refine ⟨cnd, cpr, ?_, ?_⟩
    · intro l hl d hd
      have hdU : d ∈ U := ccl l hl d hd
      obtain ⟨l2, hl2, hurl⟩ := List.mem_map.1 ((ciff d).1 hdU)
      exact ⟨l2, hl2, hurl⟩
    · intro u
      constructor
      · intro hu
        exact cic u ((ciff u).2 hu)
      · intro hu
        induction hu with
        | seed hs => exact (ciff _).1 (cmon _ (List.mem_dedup.2 hs))
        | @dep u0 d0 hu0 hd ihu =>
          obtain ⟨l0, hl0, hurl⟩ := List.mem_map.1 ihu
          have hdeps : d0 ∈ l0.dependencies := by
            have h1 : l0.dependencies = (page u0).dependencies := by
              conv_lhs => rw [cpr l0 hl0]
              rw [hurl]
              rfl
            rw [h1]
            exact hd
          exact (ciff _).1 (ccl l0 hl0 _ hdeps)

/-! ## Claim theorems: resolver side -/

/-- C3: the urls of the records produced by a completed resolution are
pairwise distinct — each listing is the result of exactly one Metadata
Provider query of its own url, so each distinct reference is queried at
most once per run — and a seed list with duplicates resolves exactly as
its deduplicated form (the code builds `set(urls)` first). -/
theorem c3_dedup_queries (page : String → PageData) (fuel : Nat)
    (seeds : List String) (req dep : List ModListing)
    (h : collect_mod_data page fuel seeds = some (req, dep)) :
    ((req ++ dep).map ModListing.url).Nodup
    ∧ ∀ fuel2 : Nat, collect_mod_data page fuel2 seeds =
        collect_mod_data page fuel2 seeds.dedup := by
  refine ⟨(collect_mod_data_invariant page fuel seeds req dep h).1, ?_⟩
  intro fuel2
  unfold collect_mod_data
  rw [List.dedup_idem]

/-- Witness for C3 at the duplicated seed list `["A", "A"]`. -/
theorem c3_dedup_queries_witness :
    (([] ++ [c1A]).map ModListing.url).Nodup
    ∧ ∀ fuel2 : Nat, collect_mod_data c1Page fuel2 ["A", "A"] =
        collect_mod_data c1Page fuel2 (["A", "A"] : List String).dedup :=
  c3_dedup_queries c1Page 2 ["A", "A"] [] [c1A] rfl

/-- C4: for every completed resolution, every dependency reference named
by any record of `requested ++ transitive` is the url of some record of
`requested ++ transitive`; the urls are pairwise distinct; and the url set
is exactly the dependency closure of the seed list. -/
theorem c4_closure_complete (page : String → PageData) (fuel : Nat)
    (seeds : List String) (req dep : List ModListing)
    (h : collect_mod_data page fuel seeds = some (req, dep)) :
    (∀ l ∈ req ++ dep, ∀ d ∈ l.dependencies, ∃ l2 ∈ req ++ dep, l2.url = d)
    ∧ ((req ++ dep).map ModListing.url).Nodup
    ∧ (∀ u, u ∈ (req ++ dep).map ModListing.url ↔ InClosure page seeds u) := by
  obtain ⟨h1, _, h3, h4⟩ := collect_mod_data_invariant page fuel seeds req dep h
  exact ⟨h3, h1, h4⟩

/-- Witness for C4 at the run where `R` pulls in its dependency `D`. -/
theorem c4_closure_complete_witness :
    (∀ l ∈ [c2R] ++ [c2D], ∀ d ∈ l.dependencies, ∃ l2 ∈ [c2R] ++ [c2D], l2.url = d)
    ∧ (([c2R] ++ [c2D]).map ModListing.url).Nodup
    ∧ (∀ u, u ∈ ([c2R] ++ [c2D]).map ModListing.url ↔ InClosure c2Page ["R"] u) :=
  c4_closure_complete c2Page 3 ["R"] [c2R] [c2D] rfl

/-! ## Termination of the resolution loop -/

theorem nodup_length_le_dedup (urls S : List String)
    (hnd : urls.Nodup) (hsub : ∀ x ∈ urls, x ∈ S) :
    urls.length ≤ S.dedup.length := by
  have h1 : urls.toFinset.card = urls.length := List.toFinset_card_of_nodup hnd
  have h2 : urls.toFinset ⊆ S.toFinset := by
    intro x hx
    rw [List.mem_toFinset] at hx ⊢
    exact hsub x hx
  have h3 := Finset.card_le_card h2
  rw [h1, List.card_toFinset] at h3
  exact h3

/-- The loop terminates on any dependency graph confined to a finite url
universe `S`: the seen set grows strictly on every continuing iteration
while staying a duplicate-free subset of `S`. -/
theorem collectLoop_total (page : String → PageData) (S : List String)
    (hS : ∀ u ∈ S, ∀ d ∈ (page u).dependencies, d ∈ S) :
    ∀ (fuel : Nat) (listings : List ModListing) (urls newUrls : List String),
      urls.Nodup → (∀ x ∈ urls, x ∈ S) → (∀ x ∈ newUrls, x ∈ urls) →
      S.dedup.length < fuel + urls.length →
      (collectLoop page fuel listings urls newUrls).isSome = true := by
  intro fuel
  induction fuel with
  | zero =>
    intro listings urls newUrls hnd hsub hfr hlt
    exfalso
    have := nodup_length_le_dedup urls S hnd hsub
    omega
  | succ fuel ih =>
    intro listings urls newUrls hnd hsub hfr hlt
    simp only [collectLoop]
    set nl := newUrls.map (get_mod_listing page) with hnl
    set n2 := (((nl.map ModListing.dependencies).flatten.dedup).filter
      (fun d => !(urls.contains d))) with hn2
    by_cases hemp : n2.isEmpty = true
    · rw [if_pos hemp]
      rfl
    · rw [if_neg hemp]
      have hmemn2 : ∀ d, d ∈ n2 ↔
          (∃ u ∈ newUrls, d ∈ (page u).dependencies) ∧ d ∉ urls :=
        fun d => mem_newUrls2 page newUrls urls d
      have hn2nd : n2.Nodup := List.Nodup.filter _ (List.nodup_dedup _)
      have hn2S : ∀ x ∈ n2, x ∈ S := by
        intro x hx
        obtain ⟨⟨u, hu, hd⟩, _⟩ := (hmemn2 x).1 hx
        exact hS u (hsub u (hfr u hu)) x hd
      have hn2ne : n2 ≠ [] := fun hh => hemp (by rw [hh]; rfl)
      have hlen : 1 ≤ n2.length := by
        cases hc : n2 with
        | nil => exact absurd hc hn2ne
        | cons a l => simp
      apply ih (listings ++ nl) (urls ++ n2) n2
      · refine List.nodup_append.2 ⟨hnd, hn2nd, ?_⟩
        intro a ha han2
        exact ((hmemn2 a).1 han2).2 ha
      · intro x hx
        rcases List.mem_append.1 hx with hx | hx
        · exact hsub x hx
        · exact hn2S x hx
      · intro x hx
        exact List.mem_append.2 (Or.inr hx)
      · rw [List.length_append]
        omega

/-- `collect_mod_data` terminates whenever the whole dependency graph
lives inside a finite url universe, with fuel one more than the number of
distinct urls of the universe. -/
theorem collect_mod_data_total (page : String → PageData) (S seeds : List String)
    (hseed : ∀ u ∈ seeds, u ∈ S)
    (hS : ∀ u ∈ S, ∀ d ∈ (page u).dependencies, d ∈ S) :
    (collect_mod_data page (S.dedup.length + 1) seeds).isSome = true := by
  unfold collect_mod_data
  have h := collectLoop_total page S hS (S.dedup.length + 1) [] seeds.dedup seeds.dedup
    (List.nodup_dedup seeds)
    (fun x hx => hseed x (List.mem_dedup.1 hx))
    (fun x hx => hx)
    (by omega)
  obtain ⟨r, hr⟩ := Option.isSome_iff_exists.1 h
  rw [hr]
  obtain ⟨L, U⟩ := r
  rfl

/-- C5: resolution over any dependency graph confined to a finite url
universe terminates (a cycle only re-introduces urls already seen, which
the filter removes); in particular the two-element cycle `A ↔ B` resolves
to exactly the two records for `A` and `B`, with their two urls pairwise
distinct (each queried once). -/
theorem c5_termination :
    (∀ (S : List String) (page : String → PageData) (seeds : List String),
      (∀ u ∈ seeds, u ∈ S) →
      (∀ u ∈ S, ∀ d ∈ (page u).dependencies, d ∈ S) →
      (collect_mod_data page (S.dedup.length + 1) seeds).isSome = true)
    ∧ collect_mod_data c5Page 3 ["A"] = some ([c5A], [c5B])
    ∧ (([c5A] ++ [c5B]).map ModListing.url).Nodup :=
  ⟨fun S page seeds h1 h2 => collect_mod_data_total page S seeds h1 h2,
    rfl, by decide⟩

/-- Witness for C5's termination statement at the concrete cycle. -/
theorem c5_termination_witness :
    (collect_mod_data c5Page ((["A", "B"] : List String).dedup.length + 1)
      ["A"]).isSome = true :=
  c5_termination.1 ["A", "B"] c5Page ["A"] (by decide) (by decide)

/-! ## Failure semantics of the resolution -/

theorem get_mod_listingE_error (page : String → Option PageData) (u v : String)
    (h : get_mod_listingE page u = .error v) : page v = none := by
  unfold get_mod_listingE at h
  cases hp : page u with
  | some d =>
    rw [hp] at h
    simp at h
  | none =>
    rw [hp] at h
    injection h with h
    subst h
    exact hp

theorem get_mod_listingE_ok (page : String → Option PageData) (u : String)
    (l : ModListing) (h : get_mod_listingE page u = .ok l) :
    ∃ d, page u = some d ∧
      l = ⟨d.name, u, d.last_updated, d.version, d.download, d.dependencies⟩ := by
  unfold get_mod_listingE at h
  cases hp : page u with
  | none =>
    rw [hp] at h
    simp at h
  | some d =>
    rw [hp] at h
    injection h with h
    exact ⟨d, rfl, h.symm⟩

theorem queryFrontier_error (page : String → Option PageData) :
    ∀ (us : List String) (v : String),
      queryFrontier page us = .error v → page v = none := by
  intro us
  induction us with
  | nil =>
    intro v h
    simp [queryFrontier] at h
  | cons u us ih =>
    intro v h
    simp only [queryFrontier] at h
    cases hu : get_mod_listingE page u with
    | error w =>
      rw [hu] at h
      injection h with h
      subst h
      exact get_mod_listingE_error page u _ hu
    | ok l0 =>
      rw [hu] at h
      cases hq : queryFrontier page us with
      | error w =>
        rw [hq] at h
        injection h with h
        subst h
        exact ih _ hq
      | ok ls0 =>
        rw [hq] at h
        simp at h

theorem queryFrontier_ok (page : String → Option PageData) :
    ∀ (us : List String) (ls : List ModListing),
      queryFrontier page us = .ok ls →
      ∀ l ∈ ls, ∃ d, page l.url = some d ∧
        l = ⟨d.name, l.url, d.last_updated, d.version, d.download, d.dependencies⟩ := by
  intro us
  induction us with
  | nil =>
    intro ls h l hl
    simp only [queryFrontier] at h
    injection h with h
    subst h
    simp at hl
  | cons u us ih =>
    intro ls h l hl
    simp only [queryFrontier] at h
    cases hu : get_mod_listingE page u with
    | error w =>
      rw [hu] at h
      simp at h
    | ok l0 =>
      rw [hu] at h
      cases hq : queryFrontier page us with
      | error w =>
        rw [hq] at h
        simp at h
      | ok ls0 =>
        rw [hq] at h
        injection h with h
        subst h
        rcases List.mem_cons.1 hl with rfl | hl
        · obtain ⟨d, hd, hleq⟩ := get_mod_listingE_ok page u l hu
          subst hleq
          exact ⟨d, hd, rfl⟩
        · exact ih ls0 hq l hl

/-- The loop of `collect_mod_data` over a fallible page fetch: a run that
reports an error names a url whose fetch really failed, and a run that
completes is built entirely from successful fetches. -/
theorem collectLoopE_props (page : String → Option PageData) :
    ∀ (fuel : Nat) (listings : List ModListing) (urls newUrls : List String),
      (∀ l ∈ listings, ∃ d, page l.url = some d ∧
        l = ⟨d.name, l.url, d.last_updated, d.version, d.download, d.dependencies⟩) →
      (∀ v, collectLoopE page fuel listings urls newUrls = some (.error v) →
        page v = none)
      ∧ (∀ L U, collectLoopE page fuel listings urls newUrls = some (.ok (L, U)) →
          ∀ l ∈ L, ∃ d, page l.url = some d ∧
            l = ⟨d.name, l.url, d.last_updated, d.version, d.download, d.dependencies⟩) := by
  intro fuel
  induction fuel with
  | zero =>
    intro listings urls newUrls hpr
    constructor
    · intro v h
      simp [collectLoopE] at h
    · intro L U h
      simp [collectLoopE] at h
  | succ fuel ih =>
    intro listings urls newUrls hpr
    have hstep : ∀ nl, queryFrontier page newUrls = .ok nl →
        ∀ l ∈ listings ++ nl, ∃ d, page l.url = some d ∧
          l = ⟨d.name, l.url, d.last_updated, d.version, d.download, d.dependencies⟩ := by
      intro nl hq l hl
      rcases List.mem_append.1 hl with hl | hl
      · exact hpr l hl
      · exact queryFrontier_ok page newUrls nl hq l hl
    constructor
    · intro v h
      simp only [collectLoopE] at h
      cases hq : queryFrontier page newUrls with
      | error w =>
        simp only [hq] at h
        obtain rfl : w = v := by simpa using h
        exact queryFrontier_error page newUrls _ hq
      | ok nl =>
        simp only [hq] at h
        by_cases hemp : ((((nl.map ModListing.dependencies).flatten.dedup).filter
            (fun d => !(urls.contains d))).isEmpty) = true
        · rw [if_pos hemp] at h
          simp at h
        · rw [if_neg hemp] at h
          exact (ih _ _ _ (hstep nl hq)).1 v h
    · intro L U h
      simp only [collectLoopE] at h
      cases hq : queryFrontier page newUrls with
      | error w =>
        simp only [hq] at h
        simp at h
      | ok nl =>
        simp only [hq] at h
        by_cases hemp : ((((nl.map ModListing.dependencies).flatten.dedup).filter
            (fun d => !(urls.contains d))).isEmpty) = true
        · rw [if_pos hemp] at h
          obtain ⟨hL, hU⟩ : listings ++ nl = L ∧ urls = U := by
            simpa using h
          subst hL
          exact hstep nl hq
        · rw [if_neg hemp] at h
          exact (ih _ _ _ (hstep nl hq)).2 L U h

/-- C9: if a metadata fetch fails during resolution, the run aborts with
an error identifying the offending reference (the url whose fetch failed),
no record list is produced, and the pipeline never builds a target tree;
conversely a completed resolution is built entirely from successful
fetches, so no tree ever comes from an incomplete closure. -/
theorem c9_fetch_failure_aborts (page : String → Option PageData)
    (g : ModListing → List ArchiveEntry) (fuel : Nat) (seeds : List String)
    (base : List String) :
    (∀ v, collect_mod_dataE page fuel seeds = some (.error v) → page v = none)
    ∧ (∀ req dep, collect_mod_dataE page fuel seeds = some (.ok (req, dep)) →
        ∀ l ∈ req ++ dep, ∃ d, page l.url = some d ∧
          l = ⟨d.name, l.url, d.last_updated, d.version, d.download, d.dependencies⟩)
    ∧ (∀ v, run_pipeline page g fuel seeds base = some (.error v) → page v = none) := by
  have hloop := collectLoopE_props page fuel [] seeds.dedup seeds.dedup
    (by intro l hl; simp at hl)
  have h1 : ∀ v, collect_mod_dataE page fuel seeds = some (.error v) → page v = none := by
    intro v h
    unfold collect_mod_dataE at h
    cases hres : collectLoopE page fuel [] seeds.dedup seeds.dedup with
    | none =>
      rw [hres] at h
      simp at h
    | some r =>
      rw [hres] at h
      cases r with
      | error w =>
        obtain rfl : w = v := by simpa using h
        exact hloop.1 _ hres
      | ok p =>
        obtain ⟨L, U⟩ := p
        simp at h
  have h2 : ∀ req dep, collect_mod_dataE page fuel seeds = some (.ok (req, dep)) →
      ∀ l ∈ req ++ dep, ∃ d, page l.url = some d ∧
        l = ⟨d.name, l.url, d.last_updated, d.version, d.download, d.dependencies⟩ := by
    intro req dep h
    unfold collect_mod_dataE at h
    cases hres : collectLoopE page fuel [] seeds.dedup seeds.dedup with
    | none =>
      rw [hres] at h
      simp at h
    | some r =>
      rw [hres] at h
      cases r with
      | error w =>
        simp at h
      | ok p =>
        obtain ⟨L, U⟩ := p
        obtain ⟨hreq, hdep⟩ : L.take (U.length - 1) = req ∧ L.drop (U.length - 1) = dep := by
          simpa using h
        have hLrd : req ++ dep = L := by
          rw [← hreq, ← hdep, List.take_append_drop]
        rw [hLrd]
        exact hloop.2 L U hres
  refine ⟨h1, h2, ?_⟩
  intro v h
  unfold run_pipeline at h
  cases hres : collect_mod_dataE page fuel seeds with
  | none =>
    rw [hres] at h
    simp at h
  | some r =>
    rw [hres] at h
    cases r with
    | error w =>
      obtain rfl : w = v := by simpa using h
      exact h1 _ hres
    | ok p =>
      obtain ⟨orig, deps⟩ := p
      simp at h

/-- Witness for C9: with the fetch for `A` failing, the resolution and the
whole pipeline abort with an error naming `A`, and `A`'s fetch indeed
failed. -/
theorem c9_fetch_failure_aborts_witness :
    collect_mod_dataE c9Page 2 ["A"] = some (.error "A")
    ∧ run_pipeline c9Page c9Arch 2 ["A"] [] = some (.error "A")
    ∧ c9Page "A" = none :=
  ⟨rfl, rfl, (c9_fetch_failure_aborts c9Page c9Arch 2 ["A"] []).1 "A" rfl⟩

end Updater
